import Mathlib

/-!
Verification of the AWS-to-Backblaze transfer pipeline (`AWStoB2`).

The Rust sources are shallowly embedded:
* `src/aws_cache.rs` — the listing enumerator (`AWSTransferCache`,
  `run_aws_cache`) becomes `reqMoreObjects` / `runLoop` / `runAwsCache`,
  with the remote `list_objects_v2` responses supplied as an explicit list.
* `src/main.rs` — the upload-slot pool (`BlazeUploadUrlCache`), the transfer
  task (`TransferToBlaze::download_and_send_next`), the failure sink and the
  main transfer loop become `takeUploadUrl`, `downloadAndSendNext`,
  `mainLoop` and `mainRun`; remote calls (download, upload, slot mint) are
  supplied by a `TaskEnv` oracle consumed in program order.
* `src/error.rs` — the error enum becomes `Err`.
* The bounded-concurrency orchestrator (`buffer_unordered(10)`) is library
  code not present in the repository; it is modelled from the spec as a
  cooperative scheduler (`schedRun`).
-/

namespace AWStoB2

/-- A source listing entry: the two fields of `rusoto_s3::Object` that
`run_aws_cache` reads (`key`, `size`); all other fields are unused. -/
structure Obj where
  key : Option String
  size : Option Int
deriving DecidableEq

/-- One `list_objects_v2` response: the fields of
`rusoto_s3::ListObjectsV2Output` that `req_more_objects` reads
(`contents`, `next_continuation_token`). -/
structure Page where
  contents : Option (List Obj)
  nextToken : Option String
deriving DecidableEq

/-- The mutable state of `AWSTransferCache`: the pending continuation token
and the buffered page (`cache : Vec<Object>`, popped from the end). -/
structure CacheState where
  nextContinuationToken : Option String
  cache : List Obj
deriving DecidableEq

/-- `AWSTransferCache::req_more_objects` (src/aws_cache.rs lines 20–42):
on a listing error the state is left unchanged and `Ok(())` is returned;
on success the token is replaced and the page contents (defaulted to empty)
are reversed into the buffer. -/
def reqMoreObjects (resp : Except String Page) (s : CacheState) : CacheState :=
  match resp with
  | .error _ => s
  | .ok objs =>
    { nextContinuationToken := objs.nextToken
      cache := (objs.contents.getD []).reverse }

/-- The line `run_aws_cache` writes for one listing entry
(src/aws_cache.rs lines 97–99): entries with `size.unwrap_or_default() > 0`
and a present key yield `key ++ "\n"`, all others yield nothing. -/
def spoolLine (o : Obj) : Option String :=
  if 0 < o.size.getD 0 then o.key.map (fun k => k ++ "\n") else none

/-- The `while let Some(object) = aws_cache.get_next_object()` loop of
`run_aws_cache` (src/aws_cache.rs lines 44–52 and 90–104), with the remote
responses supplied as the list `resps`, consumed in order.  Each iteration
refills the buffer (when it is empty and a continuation token is pending),
pops the last buffered entry (`Vec::pop`), and appends its spool line. -/
def runLoop (resps : List (Except String Page)) (s : CacheState)
    (acc : List String) : List String :=
  if s.cache.isEmpty ∧ s.nextContinuationToken.isSome then
    match resps with
    | [] => acc
    | r :: rest =>
      let s2 := reqMoreObjects r s
      match s2.cache.getLast? with
      | none => acc
      | some o =>
        runLoop rest ⟨s2.nextContinuationToken, s2.cache.dropLast⟩
          (acc ++ (spoolLine o).toList)
  else
    match hl : s.cache.getLast? with
    | none => acc
    | some o =>
      runLoop resps ⟨s.nextContinuationToken, s.cache.dropLast⟩
        (acc ++ (spoolLine o).toList)
termination_by (resps.length, s.cache.length)
decreasing_by
  · apply Prod.Lex.left
    simp
  · apply Prod.Lex.right
    have hne : s.cache ≠ [] := by
      intro h
      rw [h] at hl
      simp at hl
    have := List.length_pos.mpr hne
    simp only [List.length_dropLast]
    omega

/-- `run_aws_cache` (src/aws_cache.rs lines 80–111): one initial
`req_more_objects` call, then the drain loop; the returned value is always
`Ok` (file-system writes, which are not modelled, are the only other `?`
sites).  The result is the sequence of lines written to `.aws_files`. -/
def runAwsCache (resps : List (Except String Page)) :
    Except String (List String) :=
  let s1 := reqMoreObjects (resps.headD (.error "eof")) ⟨none, []⟩
  .ok (runLoop resps.tail s1 [])

/-- A well-formed error-free listing: every page except the last carries a
continuation token, the last carries none (continuation chaining). -/
def chainPages : List (List Obj) → List (Except String Page)
  | [] => []
  | [c] => [.ok ⟨some c, none⟩]
  | c :: c2 :: rest => .ok ⟨some c, some "t"⟩ :: chainPages (c2 :: rest)

/-- A listing truncated by a transport/provider error: `ls` pages each
announcing a continuation, then a failing response, then arbitrary further
responses that a correct continuation would have fetched. -/
def chainPagesTrunc (ls : List (List Obj)) (tail : List (Except String Page)) :
    List (Except String Page) :=
  ls.map (fun c => .ok ⟨some c, some "t"⟩) ++ (.error "net" :: tail)

/-- `backblaze::BlazeError`: the structured failure payload of an upload. -/
structure BlazeError where
  status : Int
  code : String
  message : String
deriving DecidableEq

/-- `error::Error` (src/error.rs): the crate-wide error enum. -/
inductive Err where
  | text (s : String)
  | blaze (e : BlazeError)
  | jsonError
  | ioError
  | request
  | poison
  | rusoto
deriving DecidableEq

/-- `backblaze::UploadUrlResponse`: one upload slot (endpoint + token). -/
structure UploadUrlResponse where
  authorizationToken : String
  bucketId : String
  uploadUrl : String
deriving DecidableEq

/-- Result of `BlazeUploadUrlCache::take_upload_url`, instrumented with the
pool left behind, the number of remote mints consumed, and the number of
idle slots popped. -/
structure TakeResult where
  res : Except Err UploadUrlResponse
  pool : List UploadUrlResponse
  mintsUsed : Nat
  idlePops : Nat

/-- `BlazeUploadUrlCache::take_upload_url` (src/main.rs lines 52–60):
`Vec::pop` one idle slot if present (the last element), otherwise call
`new_upload_url` — the next response of the mint oracle `mints`. -/
def takeUploadUrl (pool : List UploadUrlResponse)
    (mints : Nat → Except Err UploadUrlResponse) : TakeResult :=
  match pool.getLast? with
  | some v => ⟨.ok v, pool.dropLast, 0, 1⟩
  | none => ⟨mints 0, pool, 1, 0⟩

/-- `BlazeUploadUrlCache::return_upload_url` (src/main.rs lines 62–65):
unconditionally push the slot back onto the idle vector. -/
def returnUploadUrl (pool : List UploadUrlResponse) (u : UploadUrlResponse) :
    List UploadUrlResponse :=
  pool ++ [u]

/-- The remote collaborators of one transfer task, as oracles consumed in
program order: the S3 `get_object` result (`Err` = any rusoto error, `none`
= absent body), the successive `upload_file` results, and the successive
`get_upload_url` (mint) results. -/
structure TaskEnv where
  download : Except Unit (Option (List Nat))
  uploads : Nat → Except Err Unit
  mints : Nat → Except Err UploadUrlResponse

/-- Instrumented outcome of `TransferToBlaze::download_and_send_next`:
the returned `Result`, the key the task requested, every `upload_file`
call made (slot used, file name sent, body sent), the final idle pool,
and the mint/pop counts. -/
structure TaskTrace where
  result : Except Err Unit
  reqKey : String
  attempts : List (UploadUrlResponse × String × List Nat)
  pool : List UploadUrlResponse
  mintsUsed : Nat
  idlePops : Nat

/-- `TransferToBlaze::download_and_send_next` (src/main.rs lines 113–152).
Faithful points: a rusoto download error is collapsed to `Err.rusoto`
(line 127); an absent body ends the task `Ok` with nothing leased
(lines 147–149); the first upload's error is examined only through
`if let Err(Error::Blaze(e))`, so any non-`Blaze` upload error falls
through to `return_upload_url` and the task ends `Ok` (line 137); a
`Blaze` failure with status 401 or 503 mints one fresh slot directly via
`new_upload_url` — not through the pool — and re-attempts once, any retry
error propagating (lines 138–140); any other `Blaze` status returns the
error at once (line 142). -/
def downloadAndSendNext (env : TaskEnv) (key : String)
    (pool : List UploadUrlResponse) : TaskTrace :=
  match env.download with
  | .error _ => ⟨.error Err.rusoto, key, [], pool, 0, 0⟩
  | .ok none => ⟨.ok (), key, [], pool, 0, 0⟩
  | .ok (some image) =>
    let tk := takeUploadUrl pool env.mints
    match tk.res with
    | .error e => ⟨.error e, key, [], tk.pool, tk.mintsUsed, tk.idlePops⟩
    | .ok slot1 =>
      match env.uploads 0 with
      | .error (.blaze e) =>
        if e.status = 401 ∨ e.status = 503 then
          match env.mints tk.mintsUsed with
          | .error e2 =>
            ⟨.error e2, key, [(slot1, key, image)], tk.pool,
              tk.mintsUsed + 1, tk.idlePops⟩
          | .ok slot2 =>
            match env.uploads 1 with
            | .error e2 =>
              ⟨.error e2, key, [(slot1, key, image), (slot2, key, image)],
                tk.pool, tk.mintsUsed + 1, tk.idlePops⟩
            | .ok _ =>
              ⟨.ok (), key, [(slot1, key, image), (slot2, key, image)],
                returnUploadUrl tk.pool slot2, tk.mintsUsed + 1, tk.idlePops⟩
        else
          ⟨.error (.blaze e), key, [(slot1, key, image)], tk.pool,
            tk.mintsUsed, tk.idlePops⟩
      | .error _ =>
        ⟨.ok (), key, [(slot1, key, image)], returnUploadUrl tk.pool slot1,
          tk.mintsUsed, tk.idlePops⟩
      | .ok _ =>
        ⟨.ok (), key, [(slot1, key, image)], returnUploadUrl tk.pool slot1,
          tk.mintsUsed, tk.idlePops⟩

/-- Whether a task's `Result` is an error (`Fatal` in the spec's terms). -/
def isFatal (t : TaskTrace) : Bool :=
  match t.result with
  | .ok _ => false
  | .error _ => true

/-- Outcome of the transfer phase of `main`: the per-key task traces (in
input order), the lines written to `.failed_transfers`, and the final idle
pool. -/
structure MainRun where
  traces : List (String × TaskTrace)
  log : List String
  pool : List UploadUrlResponse

/-- The per-key closure of `main` (src/main.rs lines 192–211): run the
transfer, and on `Err` append `key ++ "\n"` to the failure sink
(`FailedTransfers::add_url_to_failed`, lines 82–92).  This models one
(in-order) interleaving of `buffer_unordered`; tasks are data-independent
except for the threaded slot pool. -/
def mainLoop : List (String × TaskEnv) → List UploadUrlResponse → MainRun
  | [], pool => ⟨[], [], pool⟩
  | (key, env) :: rest, pool =>
    let t := downloadAndSendNext env key pool
    let r := mainLoop rest t.pool
    ⟨(key, t) :: r.traces,
      (match t.result with
        | .ok _ => r.log
        | .error _ => (key ++ "\n") :: r.log),
      r.pool⟩

/-- Model of Rust `str::trim`: drop leading and trailing whitespace
characters (for the ASCII keys modelled here, Rust's Unicode-whitespace
trim and this ASCII-whitespace trim agree). -/
def trimModel (s : String) : String :=
  ⟨List.reverse (List.dropWhile Char.isWhitespace
    (List.reverse (List.dropWhile Char.isWhitespace s.data)))⟩

/-- `main` lines 186–209: each spool line is trimmed
(`line.trim().to_string()`) before becoming a transfer key; the keys are
then paired with their task environments and run. -/
def mainRun (rawLines : List String) (envs : List TaskEnv)
    (pool : List UploadUrlResponse) : MainRun :=
  mainLoop ((rawLines.map (fun l => trimModel l)).zip envs) pool

/-- An operation on the upload-slot pool: `take_upload_url` or
`return_upload_url`. -/
inductive PoolOp where
  | lease : PoolOp
  | release : UploadUrlResponse → PoolOp
deriving DecidableEq

/-- Whether a pool operation is a lease. -/
def PoolOp.isLease : PoolOp → Bool
  | .lease => true
  | .release _ => false

/-- Instrumented pool state over a sequence of operations: the idle vector,
the next unconsumed mint index, the number of leases that popped an idle
slot (`hits`), the number of releases, and the number of leases that
yielded a slot to the caller. -/
structure PoolRun where
  idle : List UploadUrlResponse
  mintIdx : Nat
  hits : Nat
  releases : Nat
  yielded : Nat

/-- One `take_upload_url` or `return_upload_url` call (src/main.rs lines
52–65) against the shared pool, with mint responses drawn in order from
the oracle `mints`. -/
def poolStep (mints : Nat → Except Err UploadUrlResponse) (r : PoolRun) :
    PoolOp → PoolRun
  | .lease =>
    let tk := takeUploadUrl r.idle (fun n => mints (r.mintIdx + n))
    ⟨tk.pool, r.mintIdx + tk.mintsUsed, r.hits + tk.idlePops, r.releases,
      r.yielded + (match tk.res with | .ok _ => 1 | .error _ => 0)⟩
  | .release u =>
    ⟨returnUploadUrl r.idle u, r.mintIdx, r.hits, r.releases + 1, r.yielded⟩

/-- A sequence of pool operations executed in order. -/
def runPoolOps (mints : Nat → Except Err UploadUrlResponse) :
    List PoolOp → PoolRun → PoolRun
  | [], r => r
  | op :: ops, r => runPoolOps mints ops (poolStep mints r op)

/-- Modelled from the spec: state of the bounded-concurrency orchestrator
(`futures::stream::iter(..).buffer_unordered(10)`, src/main.rs line 209 —
the combinator's code is library code outside this repository).  Each task
is its remaining number of cooperative polls; `pending` are unstarted
tasks in input order, `active` the in-flight ones, `finished` counts
completions and `maxActive` the high-water mark of concurrency. -/
structure SchedState where
  pending : List Nat
  active : List Nat
  finished : Nat
  maxActive : Nat

/-- Modelled from the spec: `buffer_unordered` keeps starting pending tasks
while fewer than `k` are in flight. -/
def refill (k : Nat) (pending active : List Nat) : List Nat × List Nat :=
  if active.length < k then
    match pending with
    | [] => ([], active)
    | t :: ps => refill k ps (active ++ [t])
  else (pending, active)
termination_by pending.length

/-- Modelled from the spec: poll one in-flight task, chosen by the
scheduling oracle `c` (completion order is unordered); a task whose
remaining polls reach zero completes. -/
def poll (c : Nat) (active : List Nat) (fin : Nat) : List Nat × Nat :=
  match active with
  | [] => ([], fin)
  | _ :: _ =>
    let i := c % active.length
    match active.drop i with
    | [] => (active, fin)
    | f :: suf =>
      if f ≤ 1 then (active.take i ++ suf, fin + 1)
      else (active.take i ++ (f - 1) :: suf, fin)

/-- Modelled from the spec: one scheduler tick — refill to capacity,
record the concurrency high-water mark, poll one task. -/
def schedStep (k c : Nat) (s : SchedState) : SchedState :=
  let pa := refill k s.pending s.active
  let m2 := max s.maxActive pa.2.length
  let af := poll c pa.2 s.finished
  ⟨pa.1, af.1, af.2, m2⟩

/-- Modelled from the spec: run the orchestrator for at most `gas` ticks
with scheduling oracle `choices`; returns the final state and whether it
ran to completion (`.collect().await` returned). -/
def schedRun (k : Nat) : Nat → (Nat → Nat) → SchedState → SchedState × Bool
  | 0, _, s => (s, false)
  | g + 1, choices, s =>
    if s.pending.isEmpty ∧ s.active.isEmpty then (s, true)
    else schedRun k g (fun n => choices (n + 1)) (schedStep k (choices 0) s)

/-- Termination measure of the scheduler: total remaining polls plus the
number of unfinished tasks. -/
def measureOf (s : SchedState) : Nat :=
  s.pending.sum + s.active.sum + s.pending.length + s.active.length

/-- `main` lines 192–211: one task per spooled key
(`lines.into_iter().map(..)`), run under `buffer_unordered(10)` until all
complete. `fuels` gives each key's task length, `choices` the schedule. -/
def orchestrate (keys : List String) (fuels : String → Nat)
    (choices : Nat → Nat) : SchedState × Bool :=
  let s0 : SchedState := ⟨keys.map fuels, [], 0, 0⟩
  schedRun 10 (measureOf s0 + 1) choices s0

/-- A concrete upload slot, for witnesses. -/
def slotA : UploadUrlResponse := ⟨"tokA", "bkt", "urlA"⟩

/-- A second concrete upload slot, for witnesses. -/
def slotB : UploadUrlResponse := ⟨"tokB", "bkt", "urlB"⟩

/-- Witness environment: first upload fails with Blaze status 503, the
retry succeeds; mints always deliver `slotB`. -/
def envRetry : TaskEnv :=
  ⟨.ok (some [7, 8]),
    fun n => if n = 0 then .error (.blaze ⟨503, "service_unavailable", "m"⟩) else .ok (),
    fun _ => .ok slotB⟩

/-- Witness environment: first upload fails with Blaze status 400. -/
def envBad : TaskEnv :=
  ⟨.ok (some [7]),
    fun _ => .error (.blaze ⟨400, "bad_request", "m"⟩),
    fun _ => .ok slotB⟩

/-- Witness environment: the first upload fails with a transport-level
(non-`Blaze`) error. -/
def envTransport : TaskEnv :=
  ⟨.ok (some [9]), fun _ => .error .request, fun _ => .ok slotB⟩

/-- Witness environment: the source reports no body for the key. -/
def envNoBody : TaskEnv :=
  ⟨.ok none, fun _ => .ok (), fun _ => .ok slotB⟩

/-- Witness environment: download and upload both succeed. -/
def envOk : TaskEnv :=
  ⟨.ok (some [1]), fun _ => .ok (), fun _ => .ok slotB⟩

theorem runLoop_drain (resps : List (Except String Page)) (tok : Option String) :
    ∀ (pre : List Obj) (acc : List String),
      runLoop resps ⟨tok, pre.reverse⟩ acc
        = runLoop resps ⟨tok, []⟩ (acc ++ pre.filterMap spoolLine) := by
  intro pre
  induction pre with
  | nil => intro acc; simp
  | cons a p ih =>
    intro acc
    conv_lhs => rw [runLoop.eq_def]
    rw [if_neg (by simp)]
    split
    next heq =>
      rw [List.reverse_cons, List.getLast?_concat] at heq
      exact absurd heq (by simp)
    next o heq =>
      rw [List.reverse_cons, List.getLast?_concat] at heq
      obtain rfl : a = o := by injection heq
      rw [show ((a :: p).reverse : List Obj).dropLast = p.reverse by
        rw [List.reverse_cons, List.dropLast_concat]]
      rw [ih]
      congr 1
      rw [List.append_assoc]
      congr 1
      cases h : spoolLine a <;> simp [List.filterMap_cons, h]

theorem runLoop_okPages :
    ∀ ls : List (List Obj), (∀ c ∈ ls, c ≠ []) →
      ∀ (rest : List (Except String Page)) (acc : List String),
        runLoop (ls.map (fun c => Except.ok ⟨some c, some "t"⟩) ++ rest)
            ⟨some "t", []⟩ acc
          = runLoop rest ⟨some "t", []⟩ (acc ++ ls.flatten.filterMap spoolLine) := by
  intro ls
  induction ls with
  | nil => intro _ rest acc; simp
  | cons c ls ih =>
    intro hne rest acc
    obtain ⟨a, c', rfl⟩ : ∃ a c', c = a :: c' := by
      cases c with
      | nil => exact absurd rfl (hne [] (by simp))
      | cons a c' => exact ⟨a, c', rfl⟩
    conv_lhs => rw [runLoop.eq_def]
    rw [if_pos (by simp)]
    simp only [List.map_cons, List.cons_append, reqMoreObjects, Option.getD_some,
      List.reverse_cons, List.getLast?_concat, List.dropLast_concat]
    rw [runLoop_drain, ih (fun d hd => hne d (by simp [hd]))]
    congr 1
    cases h : spoolLine a <;>
      simp [List.filterMap_cons, h, List.filterMap_append, List.append_assoc]

theorem runLoop_lastPage (c : List Obj) (acc : List String) :
    runLoop [Except.ok ⟨some c, none⟩] ⟨some "t", []⟩ acc
      = acc ++ c.filterMap spoolLine := by
  cases c with
  | nil =>
    rw [runLoop.eq_def]
    simp [reqMoreObjects]
  | cons a c' =>
    conv_lhs => rw [runLoop.eq_def]
    rw [if_pos (by simp)]
    simp only [reqMoreObjects, Option.getD_some, List.reverse_cons,
      List.getLast?_concat, List.dropLast_concat]
    rw [runLoop_drain]
    rw [runLoop.eq_def]
    simp only [List.isEmpty_nil, Option.isSome_none]
    cases h : spoolLine a <;>
      simp [List.filterMap_cons, h, List.append_assoc]

theorem runLoop_errorStop (e : String) (tail : List (Except String Page))
    (acc : List String) :
    runLoop (Except.error e :: tail) ⟨some "t", []⟩ acc = acc := by
  rw [runLoop.eq_def]
  simp [reqMoreObjects]

theorem runLoop_noToken (resps : List (Except String Page)) (acc : List String) :
    runLoop resps ⟨none, []⟩ acc = acc := by
  rw [runLoop.eq_def]
  simp

theorem runLoop_chain :
    ∀ ls : List (List Obj), ls ≠ [] → (∀ c ∈ ls, c ≠ []) →
      ∀ acc : List String,
        runLoop (chainPages ls) ⟨some "t", []⟩ acc
          = acc ++ ls.flatten.filterMap spoolLine := by
  intro ls
  induction ls with
  | nil => intro h; exact absurd rfl h
  | cons c ls ih =>
    intro _ hne acc
    cases ls with
    | nil =>
      rw [show chainPages [c] = [Except.ok ⟨some c, none⟩] from rfl]
      rw [runLoop_lastPage]
      simp
    | cons c2 rest =>
      obtain ⟨a, c', rfl⟩ : ∃ a c', c = a :: c' := by
        cases c with
        | nil => exact absurd rfl (hne [] (by simp))
        | cons a c' => exact ⟨a, c', rfl⟩
      rw [show chainPages ((a :: c') :: c2 :: rest)
            = Except.ok ⟨some (a :: c'), some "t"⟩ :: chainPages (c2 :: rest)
          from rfl]
      conv_lhs => rw [runLoop.eq_def]
      rw [if_pos (by simp)]
      simp only [reqMoreObjects, Option.getD_some, List.reverse_cons,
        List.getLast?_concat, List.dropLast_concat]
      rw [runLoop_drain, ih (by simp) (fun d hd => hne d (by simp [hd]))]
      cases h : spoolLine a <;>
        simp [List.filterMap_cons, h, List.append_assoc]

theorem runAwsCache_chainPages :
    ∀ ls : List (List Obj), (∀ c ∈ ls, c ≠ []) →
      runAwsCache (chainPages ls) = .ok (ls.flatten.filterMap spoolLine) := by
  intro ls hne
  cases ls with
  | nil =>
    show Except.ok (runLoop [] ⟨none, []⟩ []) = _
    rw [runLoop_noToken]
    rfl
  | cons c ls =>
    cases ls with
    | nil =>
      show Except.ok (runLoop [] (reqMoreObjects (Except.ok ⟨some c, none⟩) ⟨none, []⟩) []) = _
      simp only [reqMoreObjects, Option.getD_some]
      rw [runLoop_drain [] none c [], runLoop_noToken]
      simp
    | cons c2 rest =>
      show Except.ok (runLoop (chainPages (c2 :: rest))
            (reqMoreObjects (Except.ok ⟨some c, some "t"⟩) ⟨none, []⟩) []) = _
      simp only [reqMoreObjects, Option.getD_some]
      rw [runLoop_drain (chainPages (c2 :: rest)) (some "t") c []]
      rw [runLoop_chain (c2 :: rest) (by simp) (fun d hd => hne d (by simp [hd]))]
      simp [List.filterMap_append]

/-- C3 counterexample: for the single provider page `[a, b]` (both entries
of size 1), the spool is `["a\n", "b\n"]` — the provider's own order — and
not the within-page reversal `["b\n", "a\n"]` the claim asserts. -/
theorem C3_counterexample :
    runAwsCache (chainPages [[⟨some "a", some 1⟩, ⟨some "b", some 1⟩]])
        = .ok ["a\n", "b\n"]
    ∧ (["a\n", "b\n"] : List String) ≠ ["b\n", "a\n"] := by
  refine ⟨?_, by decide⟩
  rw [runAwsCache_chainPages _ (by decide)]
  rfl

/-- C3 (amended): for every error-free chained listing with non-empty
pages, the spool is the concatenation, page by page in the order received,
of each page's qualifying lines in the provider's original within-page
order (the buffer is reversed on receipt and then popped from the end,
which restores the original order). -/
theorem C3_spool_order (ls : List (List Obj)) (hne : ∀ c ∈ ls, c ≠ []) :
    runAwsCache (chainPages ls)
      = .ok ((ls.map (fun c => c.filterMap spoolLine)).flatten) := by
  rw [runAwsCache_chainPages ls hne]
  rw [List.filterMap_flatten]

/-- C3 witness: two chained pages spool in received-page order with
original within-page order. -/
theorem C3_spool_order_witness :
    (∀ c ∈ [[⟨some "a", some 1⟩, ⟨some "b", some 1⟩],
            [⟨some "c", some 1⟩]], c ≠ ([] : List Obj))
    ∧ runAwsCache (chainPages [[⟨some "a", some 1⟩, ⟨some "b", some 1⟩],
        [⟨some "c", some 1⟩]]) = .ok ["a\n", "b\n", "c\n"] :=
  ⟨by decide, by rw [C3_spool_order _ (by decide)]; rfl⟩

/-- C4: a transport/provider error on a listing request is swallowed: the
run still returns success, enumeration stops as if the listing were
exhausted — the responses a correct continuation would have fetched
(`tail`) contribute nothing — and the lines already spooled (those of the
pages before the error) are exactly preserved, with no duplication. -/
theorem C4_listing_error_swallowed (ls : List (List Obj))
    (tail : List (Except String Page)) (hne : ∀ c ∈ ls, c ≠ []) :
    runAwsCache (chainPagesTrunc ls tail)
      = .ok (ls.flatten.filterMap spoolLine) := by
  cases ls with
  | nil =>
    show Except.ok (runLoop tail ⟨none, []⟩ []) = _
    rw [runLoop_noToken]
    rfl
  | cons c rest =>
    show Except.ok
        (runLoop (rest.map (fun d => Except.ok ⟨some d, some "t"⟩)
            ++ (Except.error "net" :: tail)) ⟨some "t", c.reverse⟩ []) = _
    rw [runLoop_drain _ (some "t") c []]
    rw [runLoop_okPages rest (fun d hd => hne d (by simp [hd]))]
    rw [runLoop_errorStop]
    simp [List.filterMap_append]

/-- C4 witness: one page is spooled, then the listing errors; a page that
the continuation would have delivered afterwards is never spooled, the
call still returns `Ok`. -/
theorem C4_listing_error_swallowed_witness :
    (∀ c ∈ [[⟨some "k", some 5⟩]], c ≠ ([] : List Obj))
    ∧ runAwsCache (chainPagesTrunc [[⟨some "k", some 5⟩]]
        [Except.ok ⟨some [⟨some "lost", some 9⟩], none⟩]) = .ok ["k\n"] :=
  ⟨by decide, by
    rw [C4_listing_error_swallowed [[⟨some "k", some 5⟩]]
      [Except.ok ⟨some [⟨some "lost", some 9⟩], none⟩] (by decide)]
    rfl⟩

/-- C5: across all pages of an error-free chained run with non-empty
pages, the spool contains exactly the lines `key ++ "\n"` of the listing
entries whose size is greater than 0 and whose key is present — one line
per such entry, in listing order, and no others. -/
theorem C5_spool_exactly_filtered (ls : List (List Obj))
    (hne : ∀ c ∈ ls, c ≠ []) :
    runAwsCache (chainPages ls) = .ok (ls.flatten.filterMap spoolLine) :=
  runAwsCache_chainPages ls hne

/-- C5 witness: zero-size and keyless entries are dropped, the rest are
spooled exactly once each. -/
theorem C5_spool_exactly_filtered_witness :
    (∀ c ∈ [[⟨some "a", some 2⟩, ⟨some "z", some 0⟩],
            [⟨none, some 3⟩, ⟨some "b", some 1⟩]], c ≠ ([] : List Obj))
    ∧ runAwsCache (chainPages [[⟨some "a", some 2⟩, ⟨some "z", some 0⟩],
        [⟨none, some 3⟩, ⟨some "b", some 1⟩]]) = .ok ["a\n", "b\n"] :=
  ⟨by decide, by rw [C5_spool_exactly_filtered _ (by decide)]; rfl⟩

theorem task_keys (env : TaskEnv) (key : String)
    (pool : List UploadUrlResponse) :
    (downloadAndSendNext env key pool).reqKey = key
    ∧ ∀ a ∈ (downloadAndSendNext env key pool).attempts, a.2.1 = key := by
  simp only [downloadAndSendNext]
  cases env.download with
  | error e => exact ⟨rfl, by simp⟩
  | ok ob =>
    cases ob with
    | none => exact ⟨rfl, by simp⟩
    | some image =>
      cases (takeUploadUrl pool env.mints).res with
      | error e => exact ⟨rfl, by simp⟩
      | ok slot1 =>
        cases env.uploads 0 with
        | ok u => exact ⟨rfl, by simp⟩
        | error e0 =>
          cases e0 with
          | blaze e =>
            by_cases hs : e.status = 401 ∨ e.status = 503
            · cases env.mints (takeUploadUrl pool env.mints).mintsUsed with
              | error e2 => refine ⟨?_, ?_⟩ <;> simp [if_pos hs]
              | ok slot2 =>
                cases env.uploads 1 with
                | error e2 => refine ⟨?_, ?_⟩ <;> simp [if_pos hs]
                | ok u => refine ⟨?_, ?_⟩ <;> simp [if_pos hs]
            · refine ⟨?_, ?_⟩ <;> simp [if_neg hs]
          | text s => exact ⟨rfl, by simp⟩
          | jsonError => exact ⟨rfl, by simp⟩
          | ioError => exact ⟨rfl, by simp⟩
          | request => exact ⟨rfl, by simp⟩
          | poison => exact ⟨rfl, by simp⟩
          | rusoto => exact ⟨rfl, by simp⟩

theorem task_retryable (env : TaskEnv) (key : String) (body : List Nat)
    (pool : List UploadUrlResponse) (slot1 u2 : UploadUrlResponse)
    (e : BlazeError)
    (hd : env.download = .ok (some body))
    (htk : (takeUploadUrl pool env.mints).res = .ok slot1)
    (h1 : env.uploads 0 = .error (.blaze e))
    (hs : e.status = 401 ∨ e.status = 503)
    (hm : env.mints (takeUploadUrl pool env.mints).mintsUsed = .ok u2) :
    (downloadAndSendNext env key pool).attempts
        = [(slot1, key, body), (u2, key, body)]
    ∧ (downloadAndSendNext env key pool).idlePops
        = (takeUploadUrl pool env.mints).idlePops := by
  cases h2 : env.uploads 1 with
  | error e2 =>
    refine ⟨?_, ?_⟩ <;>
      simp [downloadAndSendNext, hd, htk, h1, if_pos hs, hm, h2]
  | ok u =>
    refine ⟨?_, ?_⟩ <;>
      simp [downloadAndSendNext, hd, htk, h1, if_pos hs, hm, h2]

theorem task_nonretryable (env : TaskEnv) (key : String) (body : List Nat)
    (pool : List UploadUrlResponse) (slot1 : UploadUrlResponse)
    (e : BlazeError)
    (hd : env.download = .ok (some body))
    (htk : (takeUploadUrl pool env.mints).res = .ok slot1)
    (h1 : env.uploads 0 = .error (.blaze e))
    (hs : ¬(e.status = 401 ∨ e.status = 503)) :
    (downloadAndSendNext env key pool).attempts = [(slot1, key, body)]
    ∧ (downloadAndSendNext env key pool).result = .error (.blaze e) := by
  refine ⟨?_, ?_⟩ <;>
    simp [downloadAndSendNext, hd, htk, h1, if_neg hs]

/-- C1: if the first upload attempt fails with a structured Blaze error of
status 401 or 503 (and minting succeeds, as the claim presumes), exactly
one retry happens — two upload calls in total, both with the same key and
body, the retry using a slot obtained from a direct mint (the pool's idle
set is popped at most for the first lease: `idlePops` is 0 on an empty
pool and 1 otherwise, never 2); for any other Blaze status there is no
retry — exactly one upload call — and the task returns the error (Fatal). -/
theorem C1_retry_policy (env : TaskEnv) (key : String) (body : List Nat)
    (pool : List UploadUrlResponse) (slot1 : UploadUrlResponse)
    (e : BlazeError)
    (hd : env.download = .ok (some body))
    (hlease : (takeUploadUrl pool env.mints).res = .ok slot1)
    (h1 : env.uploads 0 = .error (.blaze e)) :
    ((e.status = 401 ∨ e.status = 503) → (∀ n, ∃ u, env.mints n = .ok u) →
      (downloadAndSendNext env key pool).attempts.length = 2
      ∧ (∀ a ∈ (downloadAndSendNext env key pool).attempts,
          a.2.1 = key ∧ a.2.2 = body)
      ∧ (∃ m u, env.mints m = .ok u
          ∧ (downloadAndSendNext env key pool).attempts.drop 1
              = [(u, key, body)])
      ∧ (downloadAndSendNext env key pool).idlePops
          = (if pool.isEmpty then 0 else 1))
    ∧ (¬(e.status = 401 ∨ e.status = 503) →
      (downloadAndSendNext env key pool).attempts.length = 1
      ∧ (downloadAndSendNext env key pool).result = .error (.blaze e)) := by
  constructor
  · intro hs hm
    obtain ⟨u2, hu2⟩ := hm ((takeUploadUrl pool env.mints).mintsUsed)
    obtain ⟨hatt, hpop⟩ :=
      task_retryable env key body pool slot1 u2 e hd hlease h1 hs hu2
    refine ⟨by rw [hatt]; rfl, ?_, ⟨_, u2, hu2, by rw [hatt]; rfl⟩, ?_⟩
    · rw [hatt]
      intro a ha
      simp only [List.mem_cons, List.not_mem_nil, or_false] at ha
      rcases ha with rfl | rfl <;> exact ⟨rfl, rfl⟩
    · rw [hpop]
      rcases List.eq_nil_or_concat pool with rfl | ⟨p0, v, rfl⟩
      · rfl
      · simp [takeUploadUrl]
  · intro hs
    obtain ⟨hatt, hres⟩ :=
      task_nonretryable env key body pool slot1 e hd hlease h1 hs
    exact ⟨by rw [hatt]; rfl, hres⟩

/-- C1 witness: first upload of key `k` fails with Blaze status 503 against
the pool `[slotA]`; exactly two upload calls happen and only one idle slot
is ever popped. -/
theorem C1_retry_policy_witness :
    (downloadAndSendNext envRetry "k" [slotA]).attempts.length = 2
    ∧ (downloadAndSendNext envRetry "k" [slotA]).idlePops = 1 := by
  obtain ⟨hA, _⟩ :=
    C1_retry_policy envRetry "k" [7, 8] [slotA] slotA
      ⟨503, "service_unavailable", "m"⟩ rfl rfl rfl
  obtain ⟨hlen, -, -, hpop⟩ := hA (by decide) (fun n => ⟨slotB, rfl⟩)
  exact ⟨hlen, by rw [hpop]; rfl⟩

/-- C2 evaluated at the failing input: the first upload attempt fails with
a transport-level (`Error::Request`) error, yet — because line 137's
`if let Err(Error::Blaze(e))` silently discards every non-`Blaze` error —
the task returns `Ok` with no retry, the leased slot is pushed back into
the pool, and the key is never written to the failure sink.  The claim
(and spec §4.3/§7) say such a task is Fatal and recorded. -/
theorem C2_transport_error_swallowed :
    (downloadAndSendNext envTransport "k" [slotA]).result = .ok ()
    ∧ (downloadAndSendNext envTransport "k" [slotA]).attempts.length = 1
    ∧ (downloadAndSendNext envTransport "k" [slotA]).pool = [slotA]
    ∧ (mainLoop [("k", envTransport)] [slotA]).log = [] :=
  ⟨rfl, rfl, rfl, rfl⟩

/-- C7: when the source reports no body, the task ends `Ok` having leased
no slot, attempted no upload, consumed no mint and left the pool intact;
and the key is not written to the failure sink. -/
theorem C7_no_body (env : TaskEnv) (key : String)
    (pool : List UploadUrlResponse) (hd : env.download = .ok none) :
    downloadAndSendNext env key pool = ⟨.ok (), key, [], pool, 0, 0⟩
    ∧ (mainLoop [(key, env)] pool).log = [] := by
  have h1 : downloadAndSendNext env key pool = ⟨.ok (), key, [], pool, 0, 0⟩ := by
    simp [downloadAndSendNext, hd]
  refine ⟨h1, ?_⟩
  simp [mainLoop, h1]

/-- C7 witness at a concrete no-body environment. -/
theorem C7_no_body_witness :
    envNoBody.download = .ok none
    ∧ downloadAndSendNext envNoBody "k" [slotA]
        = ⟨.ok (), "k", [], [slotA], 0, 0⟩
    ∧ (mainLoop [("k", envNoBody)] [slotA]).log = [] :=
  ⟨rfl, (C7_no_body envNoBody "k" [slotA] rfl).1,
    (C7_no_body envNoBody "k" [slotA] rfl).2⟩

theorem mainLoop_traces_fst :
    ∀ (items : List (String × TaskEnv)) (pool : List UploadUrlResponse),
      (mainLoop items pool).traces.map Prod.fst = items.map Prod.fst := by
  intro items
  induction items with
  | nil => intro pool; rfl
  | cons it rest ih =>
    intro pool
    obtain ⟨key, env⟩ := it
    simp [mainLoop, ih]

theorem mainLoop_log_shape :
    ∀ (items : List (String × TaskEnv)) (pool : List UploadUrlResponse),
      ∀ l ∈ (mainLoop items pool).log,
        ∃ p ∈ (mainLoop items pool).traces,
          isFatal p.2 = true ∧ l = p.1 ++ "\n" := by
  intro items
  induction items with
  | nil => intro pool l hl; simp [mainLoop] at hl
  | cons it rest ih =>
    intro pool l hl
    obtain ⟨key, env⟩ := it
    simp only [mainLoop] at hl ⊢
    cases hres : (downloadAndSendNext env key pool).result with
    | ok u =>
      rw [hres] at hl
      obtain ⟨p, hp, hfat, hline⟩ :=
        ih (downloadAndSendNext env key pool).pool l hl
      exact ⟨p, List.mem_cons_of_mem _ hp, hfat, hline⟩
    | error er =>
      rw [hres] at hl
      rcases List.mem_cons.mp hl with rfl | hl2
      · exact ⟨(key, downloadAndSendNext env key pool), List.mem_cons_self _ _,
          by simp [isFatal, hres], rfl⟩
      · obtain ⟨p, hp, hfat, hline⟩ :=
          ih (downloadAndSendNext env key pool).pool l hl2
        exact ⟨p, List.mem_cons_of_mem _ hp, hfat, hline⟩

theorem append_newline_inj (a b : String) (h : a ++ "\n" = b ++ "\n") :
    a = b := by
  have hd := congrArg String.data h
  rw [String.data_append, String.data_append] at hd
  exact String.ext (List.append_cancel_right hd)

theorem mainLoop_count :
    ∀ (items : List (String × TaskEnv)) (pool : List UploadUrlResponse),
      (items.map Prod.fst).Nodup →
      ∀ p ∈ (mainLoop items pool).traces,
        (mainLoop items pool).log.count (p.1 ++ "\n")
          = if isFatal p.2 then 1 else 0 := by
  intro items
  induction items with
  | nil => intro pool _ p hp; simp [mainLoop] at hp
  | cons it rest ih =>
    intro pool hnd p hp
    obtain ⟨key, env⟩ := it
    have hkey : key ∉ rest.map Prod.fst := by
      simp only [List.map_cons, List.nodup_cons] at hnd
      exact hnd.1
    have hnd2 : (rest.map Prod.fst).Nodup := by
      simp only [List.map_cons, List.nodup_cons] at hnd
      exact hnd.2
    have hsub : ∀ q : String × TaskTrace,
        q ∈ (mainLoop rest (downloadAndSendNext env key pool).pool).traces →
        q.1 ∈ rest.map Prod.fst := by
      intro q hq
      rw [← mainLoop_traces_fst rest (downloadAndSendNext env key pool).pool]
      exact List.mem_map_of_mem Prod.fst hq
    have hnotin : (key ++ "\n")
        ∉ (mainLoop rest (downloadAndSendNext env key pool).pool).log := by
      intro hmem
      obtain ⟨q, hq, -, hline⟩ :=
        mainLoop_log_shape rest (downloadAndSendNext env key pool).pool _ hmem
      exact hkey (append_newline_inj key q.1 hline ▸ hsub q hq)
    simp only [mainLoop] at hp ⊢
    rcases List.mem_cons.mp hp with rfl | hp2
    · cases hres : (downloadAndSendNext env key pool).result with
      | ok u =>
        dsimp only
        simp [isFatal, hres, List.count_eq_zero.mpr hnotin]
      | error er =>
        dsimp only
        simp [isFatal, hres, List.count_cons_self,
          List.count_eq_zero.mpr hnotin]
    · have hp1 : p.1 ∈ rest.map Prod.fst := hsub p hp2
      have hne : ¬(p.1 ++ "\n" = key ++ "\n") := by
        intro h
        exact hkey (append_newline_inj p.1 key h ▸ hp1)
      have := ih (downloadAndSendNext env key pool).pool hnd2 p hp2
      cases hres : (downloadAndSendNext env key pool).result with
      | ok u => exact this
      | error er =>
        dsimp only
        rw [List.count_cons_of_ne hne]
        exact this

/-- C9: a line appears in the failure log only for a task that ended
Fatal (in the form `key ++ "\n"`), and — when the input keys are distinct,
as listing keys are — each task's key occurs in the log exactly once if
the task was Fatal and zero times if it succeeded. -/
theorem C9_failure_log (items : List (String × TaskEnv))
    (pool : List UploadUrlResponse) (hnd : (items.map Prod.fst).Nodup) :
    (∀ p ∈ (mainLoop items pool).traces,
      (mainLoop items pool).log.count (p.1 ++ "\n")
        = if isFatal p.2 then 1 else 0)
    ∧ ∀ l ∈ (mainLoop items pool).log,
        ∃ p ∈ (mainLoop items pool).traces,
          isFatal p.2 = true ∧ l = p.1 ++ "\n" :=
  ⟨mainLoop_count items pool hnd, mainLoop_log_shape items pool⟩

/-- C9 witness: key `k` fails fatally (Blaze 400), key `g` succeeds; `k`
is logged exactly once and `g` never. -/
theorem C9_failure_log_witness :
    (∀ p ∈ (mainLoop [("k", envBad), ("g", envOk)] [slotA]).traces,
      (mainLoop [("k", envBad), ("g", envOk)] [slotA]).log.count (p.1 ++ "\n")
        = if isFatal p.2 then 1 else 0)
    ∧ ∀ l ∈ (mainLoop [("k", envBad), ("g", envOk)] [slotA]).log,
        ∃ p ∈ (mainLoop [("k", envBad), ("g", envOk)] [slotA]).traces,
          isFatal p.2 = true ∧ l = p.1 ++ "\n" :=
  C9_failure_log [("k", envBad), ("g", envOk)] [slotA] (by decide)

theorem map_fst_zip_take (l1 : List String) (l2 : List TaskEnv) :
    (l1.zip l2).map Prod.fst = l1.take l2.length := by
  induction l1 generalizing l2 with
  | nil => simp
  | cons a l ih => cases l2 <;> simp [ih]

theorem mainLoop_task_keys :
    ∀ (items : List (String × TaskEnv)) (pool : List UploadUrlResponse),
      ∀ p ∈ (mainLoop items pool).traces,
        p.2.reqKey = p.1 ∧ ∀ a ∈ p.2.attempts, a.2.1 = p.1 := by
  intro items
  induction items with
  | nil => intro pool p hp; simp [mainLoop] at hp
  | cons it rest ih =>
    intro pool p hp
    obtain ⟨key, env⟩ := it
    simp only [mainLoop] at hp
    rcases List.mem_cons.mp hp with rfl | hp2
    · exact task_keys env key pool
    · exact ih (downloadAndSendNext env key pool).pool p hp2

/-- C10: the keys under which transfer tasks run are the
whitespace-trimmed spool lines (`line.trim().to_string()`), in order; and
every task downloads and uploads under exactly its (trimmed) key — the
requested key and every upload attempt's file name equal the trimmed
line, not the raw spooled bytes. -/
theorem C10_trimmed_keys (rawLines : List String) (envs : List TaskEnv)
    (pool : List UploadUrlResponse) :
    (mainRun rawLines envs pool).traces.map Prod.fst
        = (rawLines.map trimModel).take envs.length
    ∧ ∀ p ∈ (mainRun rawLines envs pool).traces,
        p.2.reqKey = p.1 ∧ ∀ a ∈ p.2.attempts, a.2.1 = p.1 := by
  constructor
  · rw [mainRun, mainLoop_traces_fst, map_fst_zip_take]
  · intro p hp
    exact mainLoop_task_keys _ pool p hp

/-- C10 witness: the spooled line `" a "` runs (and uploads) under the
trimmed key `"a"`, not under the raw bytes `" a "`. -/
theorem C10_trimmed_keys_witness :
    trimModel " a " ≠ " a "
    ∧ (mainRun [" a ", "b"] [envOk, envNoBody] [slotA]).traces.map Prod.fst
        = ["a", "b"]
    ∧ ∀ p ∈ (mainRun [" a ", "b"] [envOk, envNoBody] [slotA]).traces,
        p.2.reqKey = p.1 ∧ ∀ a ∈ p.2.attempts, a.2.1 = p.1 := by
  refine ⟨by decide, ?_,
    (C10_trimmed_keys [" a ", "b"] [envOk, envNoBody] [slotA]).2⟩
  rw [(C10_trimmed_keys [" a ", "b"] [envOk, envNoBody] [slotA]).1]
  rfl

theorem poolStep_lease_balance (mints : Nat → Except Err UploadUrlResponse)
    (r : PoolRun) :
    (poolStep mints r .lease).idle.length + (poolStep mints r .lease).hits
        = r.idle.length + r.hits
    ∧ (poolStep mints r .lease).releases = r.releases := by
  rcases List.eq_nil_or_concat r.idle with hnil | ⟨p0, v, hcat⟩
  · simp [poolStep, takeUploadUrl, hnil]
  · constructor
    · simp only [poolStep, takeUploadUrl, hcat, List.concat_eq_append,
        List.getLast?_concat, List.dropLast_concat, List.length_append,
        List.length_cons, List.length_nil]
      omega
    · simp [poolStep, takeUploadUrl, hcat]

theorem poolStep_release_balance
    (mints : Nat → Except Err UploadUrlResponse) (r : PoolRun)
    (u : UploadUrlResponse) :
    (poolStep mints r (.release u)).idle.length = r.idle.length + 1
    ∧ (poolStep mints r (.release u)).hits = r.hits
    ∧ (poolStep mints r (.release u)).releases = r.releases + 1
    ∧ (poolStep mints r (.release u)).yielded = r.yielded := by
  simp [poolStep, returnUploadUrl]

theorem poolStep_yield (mints : Nat → Except Err UploadUrlResponse)
    (r : PoolRun) (hm : ∀ n, ∃ u, mints n = .ok u) :
    (poolStep mints r .lease).yielded = r.yielded + 1 := by
  rcases List.eq_nil_or_concat r.idle with hnil | ⟨p0, v, hcat⟩
  · obtain ⟨u, hu⟩ := hm r.mintIdx
    simp [poolStep, takeUploadUrl, hnil, hu]
  · simp [poolStep, takeUploadUrl, hcat]

theorem runPoolOps_inv (mints : Nat → Except Err UploadUrlResponse)
    (hm : ∀ n, ∃ u, mints n = .ok u) :
    ∀ (ops : List PoolOp) (r : PoolRun),
      (runPoolOps mints ops r).idle.length + (runPoolOps mints ops r).hits
          + r.releases
        = r.idle.length + r.hits + (runPoolOps mints ops r).releases
      ∧ (runPoolOps mints ops r).yielded
        = r.yielded + ops.countP PoolOp.isLease
      ∧ (runPoolOps mints ops r).releases
        = r.releases + ops.countP (fun o => !(PoolOp.isLease o)) := by
  intro ops
  induction ops with
  | nil => intro r; simp [runPoolOps]
  | cons op rest ih =>
    intro r
    have hstep : runPoolOps mints (op :: rest) r
        = runPoolOps mints rest (poolStep mints r op) := rfl
    rw [hstep]
    cases op with
    | lease =>
      obtain ⟨hb1, hb2⟩ := poolStep_lease_balance mints r
      have hy := poolStep_yield mints r hm
      obtain ⟨hr1, hr2, hr3⟩ := ih (poolStep mints r .lease)
      refine ⟨by omega, ?_, ?_⟩
      · rw [hr2, hy]
        simp [List.countP_cons, PoolOp.isLease]
        omega
      · rw [hr3, hb2]
        simp [List.countP_cons, PoolOp.isLease]
    | release u =>
      obtain ⟨hb1, hb2, hb3, hb4⟩ := poolStep_release_balance mints r u
      obtain ⟨hr1, hr2, hr3⟩ := ih (poolStep mints r (.release u))
      refine ⟨by omega, ?_, ?_⟩
      · rw [hr2, hb4]
        simp [List.countP_cons, PoolOp.isLease]
      · rw [hr3, hb3]
        simp [List.countP_cons, PoolOp.isLease]
        omega

/-- C6: along any sequence of lease/release operations (with the remote
mint succeeding, so that a lease on an empty pool always mints): every
lease yields a slot (`yielded` equals the number of leases — mint-on-miss,
never blocking), a release always grows the idle set by one, and the final
idle count equals the initial idle count plus the number of releases minus
the number of leases that popped an idle slot (`hits`). -/
theorem C6_pool_accounting (ops : List PoolOp)
    (idle0 : List UploadUrlResponse)
    (mints : Nat → Except Err UploadUrlResponse)
    (hm : ∀ n, ∃ u, mints n = .ok u) :
    (runPoolOps mints ops ⟨idle0, 0, 0, 0, 0⟩).idle.length
        + (runPoolOps mints ops ⟨idle0, 0, 0, 0, 0⟩).hits
      = idle0.length + (runPoolOps mints ops ⟨idle0, 0, 0, 0, 0⟩).releases
    ∧ (runPoolOps mints ops ⟨idle0, 0, 0, 0, 0⟩).idle.length
      = idle0.length + (runPoolOps mints ops ⟨idle0, 0, 0, 0, 0⟩).releases
          - (runPoolOps mints ops ⟨idle0, 0, 0, 0, 0⟩).hits
    ∧ (runPoolOps mints ops ⟨idle0, 0, 0, 0, 0⟩).yielded
      = ops.countP PoolOp.isLease
    ∧ (runPoolOps mints ops ⟨idle0, 0, 0, 0, 0⟩).releases
      = ops.countP (fun o => !(PoolOp.isLease o)) := by
  obtain ⟨h1, h2, h3⟩ := runPoolOps_inv mints hm ops ⟨idle0, 0, 0, 0, 0⟩
  simp only at h1 h2 h3
  exact ⟨by omega, by omega, by omega, by omega⟩

/-- C6 witness: starting from one idle slot, the sequence lease, release,
lease, lease ends with 0 idle slots (0 + hits 2 = 1 + releases 1) and all
three leases yielded a slot. -/
theorem C6_pool_accounting_witness :
    (runPoolOps (fun _ => Except.ok slotB)
          [PoolOp.lease, PoolOp.release slotB, PoolOp.lease, PoolOp.lease]
          ⟨[slotA], 0, 0, 0, 0⟩).idle.length
        + (runPoolOps (fun _ => Except.ok slotB)
          [PoolOp.lease, PoolOp.release slotB, PoolOp.lease, PoolOp.lease]
          ⟨[slotA], 0, 0, 0, 0⟩).hits
      = 1 + (runPoolOps (fun _ => Except.ok slotB)
          [PoolOp.lease, PoolOp.release slotB, PoolOp.lease, PoolOp.lease]
          ⟨[slotA], 0, 0, 0, 0⟩).releases
    ∧ (runPoolOps (fun _ => Except.ok slotB)
          [PoolOp.lease, PoolOp.release slotB, PoolOp.lease, PoolOp.lease]
          ⟨[slotA], 0, 0, 0, 0⟩).yielded = 3 := by
  obtain ⟨h1, -, h3, -⟩ :=
    C6_pool_accounting
      [PoolOp.lease, PoolOp.release slotB, PoolOp.lease, PoolOp.lease]
      [slotA] (fun _ => Except.ok slotB) (fun n => ⟨slotB, rfl⟩)
  exact ⟨by simpa using h1, by simpa using h3⟩

theorem refill_conserve (k : Nat) :
    ∀ p a : List Nat,
      (refill k p a).1.length + (refill k p a).2.length = p.length + a.length
      ∧ (refill k p a).1.sum + (refill k p a).2.sum = p.sum + a.sum := by
  intro p
  induction p with
  | nil =>
    intro a
    rw [refill.eq_def]
    by_cases h : a.length < k
    · rw [if_pos h]
      exact ⟨rfl, rfl⟩
    · rw [if_neg h]
      exact ⟨rfl, rfl⟩
  | cons t ps ih =>
    intro a
    rw [refill.eq_def]
    by_cases h : a.length < k
    · rw [if_pos h]
      obtain ⟨h1, h2⟩ := ih (a ++ [t])
      simp only [List.length_append, List.length_cons, List.length_nil,
        List.sum_append, List.sum_cons, List.sum_nil] at h1 h2
      constructor
      · simp only [List.length_cons]
        omega
      · simp only [List.sum_cons]
        omega
    · rw [if_neg h]
      exact ⟨rfl, rfl⟩

theorem refill_active_le (k : Nat) :
    ∀ p a : List Nat, a.length ≤ k → (refill k p a).2.length ≤ k := by
  intro p
  induction p with
  | nil =>
    intro a ha
    rw [refill.eq_def]
    by_cases h : a.length < k
    · rw [if_pos h]
      exact ha
    · rw [if_neg h]
      exact ha
  | cons t ps ih =>
    intro a ha
    rw [refill.eq_def]
    by_cases h : a.length < k
    · rw [if_pos h]
      exact ih (a ++ [t]) (by simp only [List.length_append,
        List.length_cons, List.length_nil]; omega)
    · rw [if_neg h]
      exact ha

theorem refill_active_ne (k : Nat) (hk : 0 < k) :
    ∀ p a : List Nat, p ≠ [] ∨ a ≠ [] → (refill k p a).2 ≠ [] := by
  intro p
  induction p with
  | nil =>
    intro a ha
    rcases ha with h | h
    · exact absurd rfl h
    · rw [refill.eq_def]
      by_cases hc : a.length < k
      · rw [if_pos hc]
        exact h
      · rw [if_neg hc]
        exact h
  | cons t ps ih =>
    intro a _
    rw [refill.eq_def]
    by_cases hc : a.length < k
    · rw [if_pos hc]
      exact ih (a ++ [t]) (Or.inr (by simp))
    · rw [if_neg hc]
      intro hnil
      simp only at hnil
      rw [hnil] at hc
      simp at hc
      omega

theorem poll_spec (c fin : Nat) :
    ∀ a : List Nat, a ≠ [] →
      (poll c a fin).1.length + (poll c a fin).2 = a.length + fin
      ∧ (poll c a fin).1.sum + (poll c a fin).1.length < a.sum + a.length
      ∧ (poll c a fin).1.length ≤ a.length := by
  intro a ha
  obtain ⟨x, a2, rfl⟩ := List.exists_cons_of_ne_nil ha
  have hlen : 0 < (x :: a2).length := by simp
  have hi : c % (x :: a2).length < (x :: a2).length := Nat.mod_lt _ hlen
  cases hd : (x :: a2).drop (c % (x :: a2).length) with
  | nil =>
    exfalso
    have := List.drop_eq_nil_iff.mp hd
    omega
  | cons f suf =>
    have hsplit : (x :: a2).take (c % (x :: a2).length) ++ (f :: suf)
        = x :: a2 := by
      conv_rhs => rw [← List.take_append_drop (c % (x :: a2).length) (x :: a2)]
      rw [hd]
    have hL := congrArg List.length hsplit
    have hS := congrArg List.sum hsplit
    simp only [List.length_append, List.length_cons, List.sum_append,
      List.sum_cons] at hL hS
    simp only [poll, hd]
    split_ifs with hf
    · refine ⟨?_, ?_, ?_⟩ <;>
        simp only [List.length_append, List.length_cons, List.sum_append,
          List.sum_cons] <;>
        omega
    · refine ⟨?_, ?_, ?_⟩ <;>
        simp only [List.length_append, List.length_cons, List.sum_append,
          List.sum_cons] <;>
        omega

theorem schedRun_spec (k : Nat) (hk : 0 < k) :
    ∀ (gas : Nat) (choices : Nat → Nat) (s : SchedState),
      measureOf s < gas → s.active.length ≤ k → s.maxActive ≤ k →
      (schedRun k gas choices s).2 = true
      ∧ (schedRun k gas choices s).1.pending = []
      ∧ (schedRun k gas choices s).1.active = []
      ∧ (schedRun k gas choices s).1.maxActive ≤ k
      ∧ (schedRun k gas choices s).1.finished
          + (schedRun k gas choices s).1.pending.length
          + (schedRun k gas choices s).1.active.length
        = s.finished + s.pending.length + s.active.length := by
  intro gas
  induction gas with
  | zero => intro choices s hm _ _; exact absurd hm (Nat.not_lt_zero _)
  | succ g ih =>
    intro choices s hm ha hmx
    rw [schedRun]
    by_cases hfin : s.pending.isEmpty ∧ s.active.isEmpty
    · rw [if_pos hfin]
      obtain ⟨hp, ha2⟩ := hfin
      rw [List.isEmpty_iff] at hp ha2
      exact ⟨rfl, hp, ha2, hmx, rfl⟩
    · rw [if_neg hfin]
      have hne : s.pending ≠ [] ∨ s.active ≠ [] := by
        rcases not_and_or.mp hfin with h | h
        · exact Or.inl (fun heq => h (by simp [heq]))
        · exact Or.inr (fun heq => h (by simp [heq]))
      obtain ⟨hrc1, hrc2⟩ := refill_conserve k s.pending s.active
      have hrle := refill_active_le k s.pending s.active ha
      have hrne := refill_active_ne k hk s.pending s.active hne
      obtain ⟨hp1, hp2, hp3⟩ :=
        poll_spec (choices 0) s.finished (refill k s.pending s.active).2 hrne
      have hs2p : (schedStep k (choices 0) s).pending
          = (refill k s.pending s.active).1 := rfl
      have hs2a : (schedStep k (choices 0) s).active
          = (poll (choices 0) (refill k s.pending s.active).2 s.finished).1 :=
        rfl
      have hs2f : (schedStep k (choices 0) s).finished
          = (poll (choices 0) (refill k s.pending s.active).2 s.finished).2 :=
        rfl
      have hs2m : (schedStep k (choices 0) s).maxActive
          = max s.maxActive (refill k s.pending s.active).2.length := rfl
      have hmeas : measureOf (schedStep k (choices 0) s) < measureOf s := by
        simp only [measureOf, hs2p, hs2a]
        omega
      obtain ⟨i1, i2, i3, i4, i5⟩ :=
        ih (fun n => choices (n + 1)) (schedStep k (choices 0) s)
          (by omega)
          (by rw [hs2a]; omega)
          (by rw [hs2m]; exact max_le hmx hrle)
      refine ⟨i1, i2, i3, i4, ?_⟩
      rw [i5, hs2f, hs2p, hs2a]
      omega

/-- C8 (`buffer_unordered` semantics modelled from the spec): for every
key list, task-length assignment and scheduling order, `orchestrate` —
one task per spooled key, capacity 10, as on src/main.rs lines 192–211 —
runs to completion, finishes exactly one task per input key, never has
more than 10 tasks in flight (the `maxActive` high-water mark), and
returns only once no task is pending or in flight. -/
theorem C8_bounded_concurrency (keys : List String) (fuels : String → Nat)
    (choices : Nat → Nat) :
    (orchestrate keys fuels choices).2 = true
    ∧ (orchestrate keys fuels choices).1.finished = keys.length
    ∧ (orchestrate keys fuels choices).1.maxActive ≤ 10
    ∧ (orchestrate keys fuels choices).1.pending = []
    ∧ (orchestrate keys fuels choices).1.active = [] := by
  obtain ⟨h1, h2, h3, h4, h5⟩ :=
    schedRun_spec 10 (by omega)
      (measureOf ⟨keys.map fuels, [], 0, 0⟩ + 1) choices
      ⟨keys.map fuels, [], 0, 0⟩ (Nat.lt_succ_self _) (by simp) (by simp)
  refine ⟨h1, ?_, h4, h2, h3⟩
  rw [h2, h3] at h5
  simpa using h5

end AWStoB2
